import Mathlib

/-!
Shallow embedding of `weeksched` (src/weeksched/schedule.py).

The weekly schedule is a 7x24x60 boolean matrix of 1-minute slots.  We embed
the per-day (24, 60) block in its flattened 1440-minute form (the source
itself moves between the two via `reshape`, which is the bijection
`minuteIndex = hour * 60 + minute`), so a grid is a function
`day -> minuteOfDay -> Bool`, meaningful for `day < 7` and `minute < 1440`.

Python exceptions (assertion failures, `ValueError`, numpy broadcast errors)
are modelled by `Option`: `none` means the call raised.  Timezone resolution
is an external collaborator (pytz); we model a resolved timezone converter as
a fixed offset in minutes, and the resolver as the identity on already
resolved converters.
-/

namespace WeekSched

set_option maxRecDepth 40000

/-- A time of day exactly as the Python code receives it: an
`(hour, minute)` pair of (possibly negative) integers. -/
abbrev Time := Int × Int

/-- One interval of a day schedule: a `(start, end)` pair of times. -/
abbrev Slot := Time × Time

/-- Python tuple comparison `a <= b` on `(hour, minute)` pairs
(lexicographic, as used by `assert (0, 0) <= t <= (24, 0)`). -/
def timeLe (a b : Time) : Bool :=
  decide (a.1 < b.1) || (decide (a.1 = b.1) && decide (a.2 ≤ b.2))

/-- Python tuple comparison `a < b` on `(hour, minute)` pairs
(lexicographic, as used by `assert s < e`). -/
def timeLt (a b : Time) : Bool :=
  decide (a.1 < b.1) || (decide (a.1 = b.1) && decide (a.2 < b.2))

/-- The endpoint check of `to_vector.define_slot`:
`assert (0, 0) <= t <= (24, 0)`. -/
def validEndpoint (t : Time) : Bool := timeLe (0, 0) t && timeLe t (24, 0)

/-- All checks of `to_vector.define_slot` for one slot: both endpoints in
range and `start < end` (Python tuple order). -/
def validSlot (s : Slot) : Bool :=
  validEndpoint s.1 && validEndpoint s.2 && timeLt s.1 s.2

/-- `start_idx = s[0] * 60 + s[1]` (and likewise `end_idx`). -/
def timeIdx (t : Time) : Int := t.1 * 60 + t.2

/-- Resolution of a (possibly negative or too large) Python slice bound
against a sequence of length `n`: negative indexes count from the end,
and bounds are clamped into `[0, n]`. -/
def pySliceIdx (n : Nat) (i : Int) : Nat :=
  if i < 0 then (i + n).toNat else min i.toNat n

/-- Whether minute `m` is set by the assignment
`slots[start_idx:end_idx] = 1` for slot `s` (a length-1440 vector). -/
def slotMem (s : Slot) (m : Nat) : Bool :=
  decide (pySliceIdx 1440 (timeIdx s.1) ≤ m) &&
    decide (m < pySliceIdx 1440 (timeIdx s.2))

/-- A compact day schedule as `to_vector` distinguishes its input by
`np.array(day_sched).ndim`: a single `(start, end)` slot (2-D) or a tuple
of slots (3-D).  An empty tuple of slots has ndim 1 and is rejected. -/
inductive DaySched where
  | single (s : Slot)
  | multi (ss : List Slot)
deriving DecidableEq

/-- The list of slots a day schedule denotes. -/
def slotsOf : DaySched → List Slot
  | .single s => [s]
  | .multi ss => ss

/-- A day's 1440-minute slot vector (the flattened `(24, 60)` block). -/
abbrev Row := Nat → Bool

/-- The full `(7, 24, 60)` matrix, with each day flattened to 1440 minutes. -/
abbrev Grid := Nat → Row

/-- `WeeklySchedule.to_vector`: build a day's 1440-minute vector from a
compact day schedule, `none` on any assertion failure or `ValueError`
(wrong nesting depth, in particular the empty tuple). -/
def to_vector : DaySched → Option Row
  | .single s => if validSlot s then some fun m => slotMem s m else none
  | .multi ss =>
      if ss.isEmpty then none
      else if ss.all validSlot then
        some fun m => ss.any fun s => slotMem s m
      else none

/-- Assignment `slots[day] = row` on a grid. -/
def setRow (g : Grid) (d : Nat) (row : Row) : Grid :=
  fun dd m => if dd = d then row m else g dd m

/-- The all-false grid `np.zeros((7, 24, 60), dtype=bool)`. -/
def emptyGrid : Grid := fun _ _ => false

/-- The loop body of `WeeklySchedule.to_matrix`: fold the dictionary items
(insertion order; a later duplicate key overwrites) into the zero grid,
checking `day in range(7)` before converting each day schedule. -/
def to_matrix_aux : Grid → List (Int × DaySched) → Option Grid
  | g, [] => some g
  | g, (day, ds) :: rest =>
      if 0 ≤ day ∧ day < 7 then
        match to_vector ds with
        | some row => to_matrix_aux (setRow g day.toNat row) rest
        | none => none
      else none

/-- `WeeklySchedule.to_matrix`. -/
def to_matrix (d : List (Int × DaySched)) : Option Grid :=
  to_matrix_aux emptyGrid d

/-- `WeeklySchedule.from_raw` on a dictionary argument: reject the empty
dictionary, then build the matrix.  The trailing `_validate()` always
succeeds on a dictionary-built grid (shape and boolean dtype are intrinsic
to the construction). -/
def from_raw_dict (d : List (Int × DaySched)) : Option Grid :=
  if d.isEmpty then none else to_matrix d

/-- `divmod(slot_index, 60)` turned back into an `(hour, minute)` pair. -/
def idxToTime (i : Nat) : Time := ((i / 60 : Nat), (i % 60 : Nat))

/-- The pairing loop of `format_schedule`: consecutive slot indexes are
grouped into `(start, end)` pairs (an unpaired trailing index is dropped,
as in the source where a lone `start` is never appended). -/
def pairUp : List Nat → List Slot
  | a :: b :: rest => (idxToTime a, idxToTime b) :: pairUp rest
  | _ => []

/-- `np.all` over one day's 1440 minutes. -/
def rowAll (v : Row) : Bool := (List.range 1440).all v

/-- `np.any` over one day's 1440 minutes. -/
def rowAny (v : Row) : Bool := (List.range 1440).any v

/-- The slot-index extraction of `format_schedule`: positions where the
1-minute-rolled vector differs from the vector (i.e. `v (i-1) ≠ v i` for
`i ≥ 1`; index 0 is pinned to its own value and never differs), with a
synthetic `0` prepended when the day starts true and a synthetic `1440`
appended when it ends true. -/
def slotIndexes (v : Row) : List Nat :=
  (if v 0 then [0] else [])
    ++ (List.range 1440).filter (fun i => decide (1 ≤ i) && (v (i - 1) != v i))
    ++ (if v 1439 then [1440] else [])

/-- The sentinel whole-day interval `((0, 0), (24, 0))`. -/
def wholeDaySlot : Slot := ((0, 0), (24, 0))

/-- The per-day branch of `WeeklySchedule.format_schedule`: all-true days
render as the sentinel, all-false days are omitted (`none`), and otherwise
the slot indexes are paired up, a single pair being unwrapped. -/
def format_day (v : Row) : Option DaySched :=
  if rowAll v then some (.single wholeDaySlot)
  else if !rowAny v then none
  else
    match pairUp (slotIndexes v) with
    | [s] => some (.single s)
    | ss => some (.multi ss)

/-- `np.all` over the whole grid. -/
def gridAll (g : Grid) : Bool := (List.range 7).all fun d => rowAll (g d)

/-- `np.any` over the whole grid. -/
def gridAny (g : Grid) : Bool := (List.range 7).any fun d => rowAny (g d)

/-- `WeeklySchedule.format_schedule`, as the dictionary it returns
(a partial map from day keys 0..6). -/
def format_schedule (g : Grid) : Nat → Option DaySched :=
  if gridAll g then fun d => if d < 7 then some (.single wholeDaySlot) else none
  else if !gridAny g then fun _ => none
  else fun d => if d < 7 then format_day (g d) else none

/-- Lookup in a Python dictionary built from a list of key/value pairs:
the last binding of a key wins. -/
def dictLookup : List (Int × DaySched) → Int → Option DaySched
  | [], _ => none
  | e :: rest, k =>
      match dictLookup rest k with
      | some ds => some ds
      | none => if k = e.1 then some e.2 else none

/-- The canonical form `format_schedule` uses for a day value: a
one-element tuple of slots is unwrapped to a bare slot. -/
def canonDay : DaySched → DaySched
  | .multi [s] => .single s
  | x => x

/-- A datetime value: an absolute instant (seconds since a fixed Monday
00:00 UTC epoch) together with the fixed offset, in minutes, of the
timezone the datetime itself carries. -/
structure PyDateTime where
  utcSeconds : Int
  tzOffsetMinutes : Int
deriving DecidableEq

/-- Seconds since the epoch on the datetime's own local clock. -/
def localSeconds (dt : PyDateTime) : Int :=
  dt.utcSeconds + dt.tzOffsetMinutes * 60

/-- `dt.weekday()` (Monday = 0), computed on the datetime's own fields. -/
def pyWeekday (dt : PyDateTime) : Nat :=
  ((localSeconds dt / 86400) % 7).toNat

/-- `dt.hour`, computed on the datetime's own fields. -/
def pyHour (dt : PyDateTime) : Nat :=
  (localSeconds dt % 86400 / 3600).toNat

/-- `dt.minute`, computed on the datetime's own fields. -/
def pyMinute (dt : PyDateTime) : Nat :=
  (localSeconds dt % 86400 % 3600 / 60).toNat

/-- `dt.astimezone(tz)`: same absolute instant, new carried offset. -/
def astimezone (dt : PyDateTime) (off : Int) : PyDateTime :=
  ⟨dt.utcSeconds, off⟩

/-- The `WeeklySchedule` object: dense grid, optional resolved timezone
(fixed offset in minutes), optional working-day predicate. -/
structure WeeklySchedule where
  grid : Grid
  timezone : Option Int
  is_working_day_fun : Option (PyDateTime → Bool)

/-- `WeeklySchedule._is_on_weekly_schedule`: the raw grid cell at
`[weekday, hour, minute]`. -/
def is_on_weekly_schedule (w : WeeklySchedule) (weekday hour minute : Nat) : Bool :=
  w.grid weekday (hour * 60 + minute)

/-- `WeeklySchedule.is_on_at`: if a working-day predicate is set and
rejects the datetime, return false; otherwise index the grid with the
datetime's own `weekday()`, `hour` and `minute` fields.  Note the source
performs no timezone conversion here. -/
def is_on_at (w : WeeklySchedule) (dt : PyDateTime) : Bool :=
  match w.is_working_day_fun with
  | some f =>
      if !f dt then false
      else is_on_weekly_schedule w (pyWeekday dt) (pyHour dt) (pyMinute dt)
  | none => is_on_weekly_schedule w (pyWeekday dt) (pyHour dt) (pyMinute dt)

/-- Reading of `is_on_at` following the spec's words (for comparison with
the source behaviour): first convert the instant into the window's
timezone, then evaluate. -/
def is_on_at_spec_reading (w : WeeklySchedule) (dt : PyDateTime) : Bool :=
  match w.timezone with
  | some off => is_on_at w (astimezone dt off)
  | none => is_on_at w dt

/-- `WeeklySchedule.for_timezone` fed with another schedule's stored
timezone: the external resolver (pytz) raises on a missing (`None`)
identifier, and on a set identifier returns its resolved converter, so
the call errors exactly when no timezone was stored. -/
def for_timezone (w : WeeklySchedule) (tz : Option Int) : Option WeeklySchedule :=
  match tz with
  | some off => some { w with timezone := some off }
  | none => none

/-- `WeeklySchedule.invert`: `from_raw(~other.schedule)` builds a fresh
object (timezone defaulted to UTC, working-day predicate unset), then
`for_timezone(other.timezone)` re-resolves the original's timezone
identifier — which raises (`pytz.timezone(None)`) when the original has
no timezone set. -/
def invert (w : WeeklySchedule) : Option WeeklySchedule :=
  for_timezone ⟨fun d m => !w.grid d m, some 0, none⟩ w.timezone

/-- A freshly constructed schedule (`WeeklySchedule()`): all-false grid,
no timezone, no working-day predicate.  `from_to` also returns windows in
this timezone-less state. -/
def noTzWindow : WeeklySchedule := ⟨fun _ _ => false, none, none⟩

/-- `WeeklySchedule._set_day_schedule`: the whole replacement vector is
built (and validated) by `to_vector` first; only then is the single row
assignment performed.  `none` models the exception, which leaves the
original object untouched. -/
def set_day_schedule (w : WeeklySchedule) (day : Nat) (ds : DaySched) :
    Option WeeklySchedule :=
  (to_vector ds).map fun row => { w with grid := setRow w.grid day row }

/-- `WeeklySchedule.monday`. -/
def monday (w : WeeklySchedule) (ds : DaySched) : Option WeeklySchedule :=
  set_day_schedule w 0 ds

/-- `WeeklySchedule.sunday`. -/
def sunday (w : WeeklySchedule) (ds : DaySched) : Option WeeklySchedule :=
  set_day_schedule w 6 ds

/-- One day of the grid as the list `day_schedules[day]` of 1440 slots. -/
def gridRow (g : Grid) (d : Nat) : List Bool := (List.range 1440).map (g d)

/-- Python list/array slice `l[:-k]`: for `k = 0` this is `l[:0]`, the
empty slice; otherwise it drops the last `k` items. -/
def pyDropLast (l : List Bool) (k : Nat) : List Bool :=
  if k = 0 then [] else l.take (l.length - k)

/-- numpy elementwise AND of two 1-D boolean arrays: defined when the
shapes agree, otherwise a broadcast error. -/
def npAnd (a b : List Bool) : Option (List Bool) :=
  if a.length = b.length then some (List.zipWith and a b) else none

/-- The per-day body of `shift_start`: prepend `total` false minutes,
slice off the last `total` entries, and AND with the original row. -/
def shift_row (total : Nat) (row : List Bool) : Option (List Bool) :=
  npAnd row (pyDropLast (List.replicate total false ++ row) total)

/-- Read a row back as a function (indexes past the end are false). -/
def rowOfList (l : List Bool) : Row := fun m => l.getD m false

/-- `WeeklySchedule.shift_start`: reject a negative total shift, then
rewrite every day's row by `shift_row`; any raised error (in particular
the broadcast failure when `total = 0`) aborts the call. -/
def shift_start (g : Grid) (hours minutes : Int) : Option Grid :=
  if hours * 60 + minutes < 0 then none
  else if (List.range 7).all
      (fun d => (shift_row (hours * 60 + minutes).toNat (gridRow g d)).isSome) then
    some fun d m =>
      rowOfList ((shift_row (hours * 60 + minutes).toNat (gridRow g d)).getD []) m
  else none

/-- A raw numpy array as `from_raw` may receive it directly: a shape
together with the flattened element values.  numpy admits numeric dtypes
beyond booleans (ints, floats), so the values are modelled as exact
rationals: booleans are 0/1, and a float such as 0.5 is representable. -/
structure NdArray where
  shape : List Nat
  elems : List Rat
deriving DecidableEq

/-- `WeeklySchedule._validate`: nonempty first axis, shape exactly
`(7, 24, 60)`, and every value between 0 and 1. -/
def validateNd (a : NdArray) : Bool :=
  decide (0 < a.shape.headD 0) && decide (a.shape = [7, 24, 60])
    && a.elems.all (fun x => decide (0 ≤ x))
    && a.elems.all (fun x => decide (x ≤ 1))

/-- `WeeklySchedule.from_raw` on an ndarray argument: the array is stored
as-is and then `_validate` runs. -/
def from_raw_nd (a : NdArray) : Option NdArray :=
  if validateNd a then some a else none

/-- The ndarray image of a dictionary-built grid (boolean dtype, shape
`(7, 24, 60)`). -/
def gridToNd (g : Grid) : NdArray :=
  ⟨[7, 24, 60],
   (List.range 7).flatMap fun d =>
     (List.range 1440).map fun m => if g d m then 1 else 0⟩

/-- The rational one half (built directly, so it evaluates by
reduction). -/
def half : Rat := Rat.mk' 1 2 (by decide) (Nat.coprime_one_left 2)

/-- The float array `np.full((7, 24, 60), 0.5)`: 10080 values of one
half, shape `(7, 24, 60)`. -/
def halfArray : NdArray := ⟨[7, 24, 60], List.replicate 10080 half⟩

/-- An `(hour, minute)` pair in the normal form `divmod` produces: hour in
0..23 with minute in 0..59, or exactly `(24, 0)`. -/
def normTime (t : Time) : Prop :=
  (0 ≤ t.1 ∧ t.1 ≤ 23 ∧ 0 ≤ t.2 ∧ t.2 ≤ 59) ∨ t = ((24 : Int), (0 : Int))

instance (t : Time) : Decidable (normTime t) :=
  inferInstanceAs (Decidable
    ((0 ≤ t.1 ∧ t.1 ≤ 23 ∧ 0 ≤ t.2 ∧ t.2 ≤ 59) ∨ t = ((24 : Int), (0 : Int))))

/-- A slot with normal-form endpoints and a nonempty minute range. -/
def normSlot (s : Slot) : Prop :=
  normTime s.1 ∧ normTime s.2 ∧ timeIdx s.1 < timeIdx s.2

instance (s : Slot) : Decidable (normSlot s) :=
  inferInstanceAs (Decidable (normTime s.1 ∧ normTime s.2 ∧ timeIdx s.1 < timeIdx s.2))

/-- Two slots in order with a gap: the first ends strictly before the
second starts. -/
def gapOrdered (a b : Slot) : Prop := timeIdx a.2 < timeIdx b.1

instance (a b : Slot) : Decidable (gapOrdered a b) :=
  inferInstanceAs (Decidable (timeIdx a.2 < timeIdx b.1))

/-- A computable decision procedure for the gap-ordering chain (kept
free of rewrite-produced casts so that it evaluates by reduction). -/
instance chainGapDecidable : (l : List Slot) → Decidable (List.Chain' gapOrdered l)
  | [] => isTrue List.chain'_nil
  | [_] => isTrue (List.chain'_singleton _)
  | a :: b :: rest =>
      match inferInstanceAs (Decidable (gapOrdered a b)), chainGapDecidable (b :: rest) with
      | isTrue h1, isTrue h2 => isTrue (List.chain'_cons.mpr ⟨h1, h2⟩)
      | isFalse h1, _ => isFalse fun hc => h1 (List.chain'_cons.mp hc).1
      | _, isFalse h2 => isFalse fun hc => h2 (List.chain'_cons.mp hc).2

/-- A compact day schedule in canonical-decodable form: at least one slot,
every slot normal, and the slots sorted with gaps between them. -/
def NormSched (ds : DaySched) : Prop :=
  slotsOf ds ≠ [] ∧ (∀ s ∈ slotsOf ds, normSlot s) ∧
    List.Chain' gapOrdered (slotsOf ds)

instance (ds : DaySched) : Decidable (NormSched ds) :=
  inferInstanceAs (Decidable (slotsOf ds ≠ [] ∧ (∀ s ∈ slotsOf ds, normSlot s) ∧
    List.Chain' gapOrdered (slotsOf ds)))

/-- A compact day schedule accepted by `to_vector` (the code's own
checks): a nonempty slot list, every slot passing `validSlot`. -/
def AcceptedSched (ds : DaySched) : Prop :=
  slotsOf ds ≠ [] ∧ ∀ s ∈ slotsOf ds, validSlot s = true

instance (ds : DaySched) : Decidable (AcceptedSched ds) :=
  inferInstanceAs (Decidable (slotsOf ds ≠ [] ∧ ∀ s ∈ slotsOf ds, validSlot s = true))

/-- Membership of minute `m` in the half-open minute-index range `p`. -/
def natSlotMem (p : Nat × Nat) (m : Nat) : Bool := decide (p.1 ≤ m ∧ m < p.2)

/-- The day vector denoted by a list of minute-index ranges. -/
def vOfPairs (ps : List (Nat × Nat)) : Row :=
  fun m => ps.any fun p => natSlotMem p m

/-- The flattened start/end indexes of a list of minute-index ranges. -/
def boundaryIdxs (ps : List (Nat × Nat)) : List Nat :=
  ps.flatMap fun p => [p.1, p.2]

/-- The minute-index range of a slot with in-range endpoints. -/
def toIdxPair (s : Slot) : Nat × Nat :=
  ((timeIdx s.1).toNat, (timeIdx s.2).toNat)

/-- A day vector read as false outside the 1440 real minutes. -/
def vclip (v : Row) (m : Nat) : Bool := if m < 1440 then v m else false

/-- Whether position `m` (0..1440) is an edge of the day vector `v`:
its value differs from its predecessor's, reading position -1 and
position 1440 as false. -/
def edgeB (v : Row) (m : Nat) : Bool :=
  (if m = 0 then false else vclip v (m - 1)) != vclip v m

/-- Order-with-gap on minute-index ranges. -/
def natGap (a b : Nat × Nat) : Prop := a.2 < b.1

/-- An all-true window, timezone UTC, whose working-day predicate rejects
every date. -/
def allTrueBlockedWindow : WeeklySchedule :=
  ⟨fun _ _ => true, some 0, some fun _ => false⟩

/-- The "night plus weekend" schedule of the repository's tests. -/
def complexSpec : List (Int × DaySched) :=
  [(0, .multi [((0, 0), (7, 0)), ((20, 0), (24, 0))]),
   (1, .multi [((0, 0), (7, 0)), ((20, 0), (24, 0))]),
   (2, .multi [((0, 0), (7, 0)), ((20, 0), (24, 0))]),
   (3, .multi [((0, 0), (7, 0)), ((20, 0), (24, 0))]),
   (4, .multi [((0, 0), (7, 0)), ((20, 0), (24, 0))]),
   (5, .single ((0, 0), (24, 0))),
   (6, .single ((0, 0), (24, 0)))]

/-- A spec with two adjacent intervals on Monday: 06:00-07:00 followed
immediately by 07:00-08:00. -/
def adjacentSpec : List (Int × DaySched) :=
  [(0, .multi [((6, 0), (7, 0)), ((7, 0), (8, 0))])]

/-- The grid built from `adjacentSpec`. -/
def adjacentGrid : Grid := (from_raw_dict adjacentSpec).getD emptyGrid

/-- The Monday 06:00-18:00 spec of the boundary test. -/
def mondaySpec : List (Int × DaySched) := [(0, .single ((6, 0), (18, 0)))]

/-- The grid built from `mondaySpec`. -/
def mondayGrid : Grid := (from_raw_dict mondaySpec).getD emptyGrid

/-- The window of the boundary test: Monday 06:00-18:00, timezone UTC,
no working-day predicate. -/
def mondayWindow : WeeklySchedule := ⟨mondayGrid, some 0, none⟩

/-! ## Helper lemmas -/

theorem to_vector_isSome (ds : DaySched) (h : AcceptedSched ds) :
    (to_vector ds).isSome = true := by
  obtain ⟨hne, hall⟩ := h
  cases ds with
  | single s =>
      simp only [to_vector]
      rw [if_pos (hall s (by simp [slotsOf]))]
      rfl
  | multi ss =>
      have hss : ss ≠ [] := by simpa [slotsOf] using hne
      simp only [to_vector]
      rw [if_neg (by simpa [List.isEmpty_iff] using hss),
        if_pos (by simpa [List.all_eq_true] using fun s hs => hall s (by simpa [slotsOf] using hs))]
      rfl

theorem to_matrix_aux_isSome (d : List (Int × DaySched)) :
    ∀ g0 : Grid, (∀ e ∈ d, 0 ≤ e.1 ∧ e.1 < 7 ∧ AcceptedSched e.2) →
      (to_matrix_aux g0 d).isSome = true := by
  induction d with
  | nil => intro g0 _; rfl
  | cons e rest ih =>
      intro g0 h
      obtain ⟨day, ds⟩ := e
      obtain ⟨h1, h2, h3⟩ := h (day, ds) (by simp)
      simp only [to_matrix_aux]
      rw [if_pos ⟨h1, h2⟩]
      cases hv : to_vector ds with
      | none =>
          have hs := to_vector_isSome ds h3
          rw [hv] at hs
          simp at hs
      | some row => exact ih (setRow g0 day.toNat row) fun e he => h e (by simp [he])

theorem zipWith_and_replicate_false (row : List Bool) :
    ∀ k, row.length ≤ k →
      List.zipWith and row (List.replicate k false) =
        List.replicate row.length false := by
  induction row with
  | nil => intro k _; simp
  | cons a row ih =>
      intro k hk
      cases k with
      | zero => simp at hk
      | succ k =>
          simp only [List.replicate_succ, List.zipWith_cons_cons, List.length_cons,
            Bool.and_false]
          rw [ih k (by simpa using hk)]

theorem map_getD_range (l : List Bool) (n : Nat) (h : l.length = n) :
    (List.range n).map (fun m => l.getD m false) = l := by
  apply List.ext_getElem
  · simp [h]
  · intro i h1 h2
    simp only [List.getElem_map, List.getElem_range]
    exact List.getD_eq_getElem l false h2

theorem shift_row_eq (total : Nat) (row : List Bool) (ht : total ≠ 0)
    (hlen : row.length = 1440) :
    shift_row total row =
      some (List.zipWith and row
        (List.take 1440 (List.replicate total false ++ row))) := by
  unfold shift_row pyDropLast npAnd
  rw [if_neg ht]
  have hL : (List.replicate total false ++ row).length - total = 1440 := by
    simp [hlen]
  rw [hL]
  rw [if_pos]
  simp only [List.length_take, List.length_append, List.length_replicate, hlen]
  omega

theorem take_shifted_eq (total : Nat) (row : List Bool) (hlen : row.length = 1440) :
    List.zipWith and row (List.take 1440 (List.replicate total false ++ row)) =
      List.zipWith and row
        (List.replicate total false ++ List.take (1440 - total) row) := by
  rw [List.take_append_eq_append_take, List.take_replicate, List.length_replicate]
  by_cases h : total ≤ 1440
  · rw [min_eq_right h]
  · have h0 : 1440 - total = 0 := by omega
    rw [min_eq_left (by omega), h0]
    simp only [List.take_zero, List.append_nil]
    rw [zipWith_and_replicate_false row 1440 (by omega),
      zipWith_and_replicate_false row total (by omega), hlen]

/-! ## Decoding lemmas: slot indexes of a gapped union of ranges -/

theorem mem_if_singleton (c : Bool) (x m : Nat) :
    (m ∈ if c = true then [x] else []) ↔ (c = true ∧ m = x) := by
  by_cases hc : c = true <;> simp [hc]

theorem edgeB_eq_true_iff (v : Row) (m : Nat) (hm : m ≤ 1440) :
    edgeB v m = true ↔
      ((m = 0 ∧ v 0 = true) ∨
        (1 ≤ m ∧ m ≤ 1439 ∧ v (m - 1) ≠ v m) ∨
        (m = 1440 ∧ v 1439 = true)) := by
  unfold edgeB vclip
  by_cases h0 : m = 0
  · subst h0
    rw [if_pos rfl, if_pos (by omega)]
    cases hv : v 0 <;> simp [hv]
  · by_cases h1440 : m = 1440
    · subst h1440
      rw [if_neg h0, if_pos (by omega), if_neg (by omega)]
      cases hv : v 1439 <;> simp [hv]
    · have hlt : m < 1440 := by omega
      rw [if_neg h0, if_pos (by omega), if_pos hlt, bne_iff_ne]
      constructor
      · intro h
        exact Or.inr (Or.inl ⟨by omega, by omega, h⟩)
      · rintro (⟨h, -⟩ | ⟨-, -, h⟩ | ⟨h, -⟩)
        · omega
        · exact h
        · omega

theorem mem_slotIndexes (v : Row) (m : Nat) :
    m ∈ slotIndexes v ↔ m ≤ 1440 ∧ edgeB v m = true := by
  have h1 : m ∈ slotIndexes v ↔
      ((v 0 = true ∧ m = 0) ∨
        (m < 1440 ∧ 1 ≤ m ∧ v (m - 1) ≠ v m) ∨
        (v 1439 = true ∧ m = 1440)) := by
    unfold slotIndexes
    rw [List.mem_append, List.mem_append, mem_if_singleton, mem_if_singleton,
      List.mem_filter, List.mem_range]
    simp only [Bool.and_eq_true, decide_eq_true_eq, bne_iff_ne, ne_eq]
    tauto
  rw [h1]
  constructor
  · rintro (⟨hv, rfl⟩ | ⟨hlt, h1m, hne⟩ | ⟨hv, rfl⟩)
    · exact ⟨by omega, (edgeB_eq_true_iff v 0 (by omega)).mpr (Or.inl ⟨rfl, hv⟩)⟩
    · exact ⟨by omega, (edgeB_eq_true_iff v m (by omega)).mpr
        (Or.inr (Or.inl ⟨h1m, by omega, hne⟩))⟩
    · exact ⟨le_refl _, (edgeB_eq_true_iff v 1440 (le_refl _)).mpr
        (Or.inr (Or.inr ⟨rfl, hv⟩))⟩
  · rintro ⟨hm, he⟩
    rcases (edgeB_eq_true_iff v m hm).mp he with ⟨rfl, hv⟩ | ⟨h1m, h39, hne⟩ | ⟨rfl, hv⟩
    · exact Or.inl ⟨hv, rfl⟩
    · exact Or.inr (Or.inl ⟨by omega, h1m, hne⟩)
    · exact Or.inr (Or.inr ⟨hv, rfl⟩)

theorem sorted_slotIndexes (v : Row) : List.Sorted (· < ·) (slotIndexes v) := by
  unfold slotIndexes
  apply List.pairwise_append.mpr
  refine ⟨List.pairwise_append.mpr ⟨?_, ?_, ?_⟩, ?_, ?_⟩
  · by_cases hv0 : v 0 = true <;> simp [hv0]
  · exact List.Pairwise.filter _ (List.sorted_lt_range 1440)
  · intro a ha b hb
    rw [mem_if_singleton] at ha
    have hp := (List.mem_filter.mp hb).2
    simp only [Bool.and_eq_true, decide_eq_true_eq] at hp
    omega
  · by_cases hv39 : v 1439 = true <;> simp [hv39]
  · intro a ha b hb
    rw [mem_if_singleton] at hb
    rcases List.mem_append.mp ha with ha | ha
    · rw [mem_if_singleton] at ha
      omega
    · have ha2 : a < 1440 := List.mem_range.mp (List.mem_filter.mp ha).1
      omega

theorem mem_boundaryIdxs (ps : List (Nat × Nat)) (m : Nat) :
    m ∈ boundaryIdxs ps ↔ ∃ p ∈ ps, m = p.1 ∨ m = p.2 := by
  unfold boundaryIdxs
  rw [List.mem_flatMap]
  constructor
  · rintro ⟨p, hp, hm⟩
    refine ⟨p, hp, ?_⟩
    rcases List.mem_cons.mp hm with h | h
    · exact Or.inl h
    · simp only [List.mem_singleton] at h
      exact Or.inr h
  · rintro ⟨p, hp, h | h⟩
    · exact ⟨p, hp, by simp [h]⟩
    · exact ⟨p, hp, by simp [h]⟩

theorem rest_lb (p : Nat × Nat) (ps : List (Nat × Nat))
    (hv : ∀ q ∈ ps, q.1 < q.2) (hc : List.Chain' natGap (p :: ps)) :
    ∀ q ∈ ps, p.2 < q.1 := by
  induction ps generalizing p with
  | nil => intro q hq; simp at hq
  | cons r rs ih =>
      intro q hq
      have h1 : p.2 < r.1 := (List.chain'_cons.mp hc).1
      rcases List.mem_cons.mp hq with rfl | hq
      · exact h1
      · have h2 : r.2 < q.1 := ih r (fun x hx => hv x (by simp [hx]))
          (List.chain'_cons.mp hc).2 q hq
        have h3 : r.1 < r.2 := hv r (by simp)
        omega

theorem sorted_boundaryIdxs (ps : List (Nat × Nat)) (hv : ∀ q ∈ ps, q.1 < q.2)
    (hc : List.Chain' natGap ps) : List.Sorted (· < ·) (boundaryIdxs ps) := by
  induction ps with
  | nil => simp [boundaryIdxs]
  | cons p ps ih =>
      have hvt : ∀ q ∈ ps, q.1 < q.2 := fun q hq => hv q (by simp [hq])
      have hlb := rest_lb p ps hvt hc
      have hcons : boundaryIdxs (p :: ps) = p.1 :: p.2 :: boundaryIdxs ps := by
        simp [boundaryIdxs]
      rw [hcons, List.sorted_cons, List.sorted_cons]
      refine ⟨?_, ?_, ih hvt hc.tail⟩
      · intro b hb
        rcases List.mem_cons.mp hb with rfl | hb
        · exact hv p (by simp)
        · rw [mem_boundaryIdxs] at hb
          obtain ⟨q, hq, hq2⟩ := hb
          have := hlb q hq
          have := hvt q hq
          have := hv p (List.mem_cons_self p ps)
          omega
      · intro b hb
        rw [mem_boundaryIdxs] at hb
        obtain ⟨q, hq, hq2⟩ := hb
        have := hlb q hq
        have := hvt q hq
        omega

theorem edgeB_congr (v1 v2 : Row) (m : Nat) (h : vclip v1 m = vclip v2 m)
    (h1 : m ≠ 0 → vclip v1 (m - 1) = vclip v2 (m - 1)) :
    edgeB v1 m = edgeB v2 m := by
  unfold edgeB
  by_cases h0 : m = 0
  · subst h0
    rw [if_pos rfl, if_pos rfl, h]
  · rw [if_neg h0, if_neg h0, h, h1 h0]

theorem edgeB_single (a b m : Nat) (hab : a < b) (hb : b ≤ 1440) (hm : m ≤ 1440) :
    (edgeB (fun x => natSlotMem (a, b) x) m = true) ↔ (m = a ∨ m = b) := by
  have hcur : vclip (fun x => natSlotMem (a, b) x) m = decide (a ≤ m ∧ m < b) := by
    unfold vclip natSlotMem
    by_cases hlt : m < 1440
    · rw [if_pos hlt]
    · rw [if_neg hlt]
      have hnot : ¬(a ≤ m ∧ m < b) := by omega
      simp [hnot]
  unfold edgeB
  rw [hcur]
  by_cases h0 : m = 0
  · subst h0
    rw [if_pos rfl]
    by_cases hA : a ≤ 0 ∧ 0 < b <;> simp [hA] <;> omega
  · rw [if_neg h0]
    have hprev : vclip (fun x => natSlotMem (a, b) x) (m - 1)
        = decide (a ≤ m - 1 ∧ m - 1 < b) := by
      unfold vclip natSlotMem
      rw [if_pos (by omega)]
    rw [hprev]
    by_cases hA : a ≤ m - 1 ∧ m - 1 < b <;> by_cases hB : a ≤ m ∧ m < b <;>
      simp [hA, hB] <;> omega

theorem vOfPairs_cons (p : Nat × Nat) (ps : List (Nat × Nat)) (m : Nat) :
    vOfPairs (p :: ps) m = (natSlotMem p m || vOfPairs ps m) := by
  simp [vOfPairs]

theorem vOfPairs_eq_false (ps : List (Nat × Nat)) (c m : Nat)
    (hlb : ∀ q ∈ ps, c < q.1) (hm : m ≤ c) : vOfPairs ps m = false := by
  unfold vOfPairs
  rw [List.any_eq_false]
  intro p hp
  have := hlb p hp
  simp only [natSlotMem, decide_eq_true_eq]
  omega

theorem edgeB_pairs (ps : List (Nat × Nat)) (hv : ∀ q ∈ ps, q.1 < q.2 ∧ q.2 ≤ 1440)
    (hc : List.Chain' natGap ps) :
    ∀ m, m ≤ 1440 → (edgeB (vOfPairs ps) m = true ↔ m ∈ boundaryIdxs ps) := by
  induction ps with
  | nil =>
      intro m hm
      have hz : edgeB (vOfPairs []) m = false := by
        unfold edgeB vclip vOfPairs
        simp
      rw [hz]
      simp [boundaryIdxs]
  | cons p ps ih =>
      obtain ⟨a, b⟩ := p
      intro m hm
      obtain ⟨hp12, hp2⟩ := hv (a, b) (by simp)
      have hvtail : ∀ q ∈ ps, q.1 < q.2 ∧ q.2 ≤ 1440 := fun q hq => hv q (by simp [hq])
      have hlb : ∀ q ∈ ps, b < q.1 :=
        rest_lb (a, b) ps (fun q hq => (hvtail q hq).1) hc
      by_cases hmb : m ≤ b
      · have hcong : edgeB (vOfPairs ((a, b) :: ps)) m
            = edgeB (fun x => natSlotMem (a, b) x) m := by
        -- the tail contributes nothing at m nor at m - 1
          apply edgeB_congr
          · unfold vclip
            by_cases hlt : m < 1440
            · rw [if_pos hlt, if_pos hlt, vOfPairs_cons,
                vOfPairs_eq_false ps b m hlb hmb, Bool.or_false]
            · rw [if_neg hlt, if_neg hlt]
          · intro h0
            unfold vclip
            rw [if_pos (by omega), if_pos (by omega), vOfPairs_cons,
              vOfPairs_eq_false ps b (m - 1) hlb (by omega), Bool.or_false]
        rw [hcong, edgeB_single a b m hp12 hp2 hm, mem_boundaryIdxs]
        constructor
        · intro h
          exact ⟨(a, b), by simp, h⟩
        · rintro ⟨q, hq, hq2⟩
          rcases List.mem_cons.mp hq with rfl | hq
          · exact hq2
          · exfalso
            have h1 := hlb q hq
            have h2 := (hvtail q hq).1
            omega
      · have hcong : edgeB (vOfPairs ((a, b) :: ps)) m = edgeB (vOfPairs ps) m := by
          apply edgeB_congr
          · unfold vclip
            by_cases hlt : m < 1440
            · rw [if_pos hlt, if_pos hlt, vOfPairs_cons]
              have hno : natSlotMem (a, b) m = false := by
                simp only [natSlotMem, decide_eq_false_iff_not]
                omega
              rw [hno, Bool.false_or]
            · rw [if_neg hlt, if_neg hlt]
          · intro h0
            unfold vclip
            rw [if_pos (by omega), if_pos (by omega), vOfPairs_cons]
            have hno : natSlotMem (a, b) (m - 1) = false := by
              simp only [natSlotMem, decide_eq_false_iff_not]
              omega
            rw [hno, Bool.false_or]
        rw [hcong, ih hvtail hc.tail m hm, mem_boundaryIdxs, mem_boundaryIdxs]
        constructor
        · rintro ⟨q, hq, h⟩
          exact ⟨q, by simp [hq], h⟩
        · rintro ⟨q, hq, h⟩
          rcases List.mem_cons.mp hq with rfl | hq
          · exfalso; omega
          · exact ⟨q, hq, h⟩

theorem slotIndexes_vOfPairs (ps : List (Nat × Nat))
    (hv : ∀ q ∈ ps, q.1 < q.2 ∧ q.2 ≤ 1440) (hc : List.Chain' natGap ps) :
    slotIndexes (vOfPairs ps) = boundaryIdxs ps := by
  have hsb := sorted_boundaryIdxs ps (fun q hq => (hv q hq).1) hc
  apply List.eq_of_perm_of_sorted ?_ (sorted_slotIndexes _) hsb
  rw [List.perm_ext_iff_of_nodup (sorted_slotIndexes _).nodup hsb.nodup]
  intro m
  rw [mem_slotIndexes]
  constructor
  · rintro ⟨hm, he⟩
    exact (edgeB_pairs ps hv hc m hm).mp he
  · intro h
    have hm : m ≤ 1440 := by
      rw [mem_boundaryIdxs] at h
      obtain ⟨q, hq, hq2⟩ := h
      have := hv q hq
      omega
    exact ⟨hm, (edgeB_pairs ps hv hc m hm).mpr h⟩

/-! ## Encoding lemmas: normalized compact specs -/

theorem timeIdx_bounds (t : Time) (h : normTime t) :
    0 ≤ timeIdx t ∧ timeIdx t ≤ 1440 := by
  obtain ⟨t1, t2⟩ := t
  unfold timeIdx
  rcases h with ⟨h1, h2, h3, h4⟩ | heq
  · simp only at h1 h2 h3 h4 ⊢
    omega
  · obtain ⟨e1, e2⟩ := Prod.mk.injEq .. ▸ heq
    simp only [e1, e2]
    omega

theorem idxToTime_timeIdx (t : Time) (h : normTime t) :
    idxToTime (timeIdx t).toNat = t := by
  obtain ⟨t1, t2⟩ := t
  rcases h with ⟨h1, h2, h3, h4⟩ | heq
  · unfold idxToTime timeIdx
    simp only at h1 h2 h3 h4 ⊢
    have e1 : (t1 * 60 + t2).toNat = t1.toNat * 60 + t2.toNat := by omega
    rw [e1]
    have e2 : (t1.toNat * 60 + t2.toNat) / 60 = t1.toNat := by omega
    have e3 : (t1.toNat * 60 + t2.toNat) % 60 = t2.toNat := by omega
    rw [e2, e3, Prod.mk.injEq]
    omega
  · rw [heq]
    rfl

theorem pySliceIdx_norm (t : Time) (h : normTime t) :
    pySliceIdx 1440 (timeIdx t) = (timeIdx t).toNat := by
  have hb := timeIdx_bounds t h
  unfold pySliceIdx
  rw [if_neg (by omega)]
  omega

theorem slotMem_norm (s : Slot) (h : normSlot s) (m : Nat) :
    slotMem s m = natSlotMem (toIdxPair s) m := by
  obtain ⟨h1, h2, h3⟩ := h
  unfold slotMem natSlotMem toIdxPair
  rw [pySliceIdx_norm s.1 h1, pySliceIdx_norm s.2 h2]
  simp

theorem validSlot_of_norm (s : Slot) (h : normSlot s) : validSlot s = true := by
  obtain ⟨⟨a, b⟩, c, d⟩ := s
  obtain ⟨h1, h2, h3⟩ := h
  unfold timeIdx at h3
  unfold validSlot validEndpoint timeLe timeLt
  simp only [Bool.and_eq_true, Bool.or_eq_true, decide_eq_true_eq]
  rcases h1 with ⟨a1, a2, a3, a4⟩ | he1 <;> rcases h2 with ⟨b1, b2, b3, b4⟩ | he2 <;>
    [skip; skip; skip; skip] <;>
    first
    | (simp only at *; omega)
    | (obtain ⟨e1, e2⟩ := Prod.mk.injEq .. ▸ he1
       obtain ⟨e3, e4⟩ := Prod.mk.injEq .. ▸ he2
       simp only at *
       omega)
    | (obtain ⟨e1, e2⟩ := Prod.mk.injEq .. ▸ he1
       simp only at *
       omega)
    | (obtain ⟨e3, e4⟩ := Prod.mk.injEq .. ▸ he2
       simp only at *
       omega)

theorem toIdxPair_bounds (s : Slot) (h : normSlot s) :
    (toIdxPair s).1 < (toIdxPair s).2 ∧ (toIdxPair s).2 ≤ 1440 := by
  obtain ⟨h1, h2, h3⟩ := h
  have b1 := timeIdx_bounds s.1 h1
  have b2 := timeIdx_bounds s.2 h2
  unfold toIdxPair
  simp only
  omega

theorem chain_toIdx (l : List Slot) (hall : ∀ s ∈ l, normSlot s)
    (hc : List.Chain' gapOrdered l) :
    List.Chain' natGap (l.map toIdxPair) := by
  induction l with
  | nil => simp
  | cons s l ih =>
      rw [List.map_cons]
      cases l with
      | nil => simp
      | cons s2 l2 =>
          rw [List.map_cons, List.chain'_cons]
          obtain ⟨h12, hrest⟩ := List.chain'_cons.mp hc
          refine ⟨?_, ?_⟩
          · have hn1 := hall s (by simp)
            have hn2 := hall s2 (by simp)
            have hb1 := timeIdx_bounds s.2 hn1.2.1
            have hb2 := timeIdx_bounds s2.1 hn2.1
            have hg : timeIdx s.2 < timeIdx s2.1 := h12
            show (toIdxPair s).2 < (toIdxPair s2).1
            unfold toIdxPair
            simp only
            omega
          · have := ih (fun x hx => hall x (by simp [hx])) hrest
            simpa using this

theorem to_vector_norm (ds : DaySched) (h : NormSched ds) :
    to_vector ds = some (vOfPairs ((slotsOf ds).map toIdxPair)) := by
  obtain ⟨hne, hall, hchain⟩ := h
  cases ds with
  | single s =>
      have hs := hall s (by simp [slotsOf])
      simp only [to_vector]
      rw [if_pos (validSlot_of_norm s hs)]
      congr 1
      funext m
      rw [slotMem_norm s hs m]
      simp [slotsOf, vOfPairs]
  | multi ss =>
      have hss : ¬ss.isEmpty = true := by
        simp only [List.isEmpty_iff]
        simpa [slotsOf] using hne
      simp only [to_vector]
      rw [if_neg hss, if_pos (by
        rw [List.all_eq_true]
        exact fun s hs => validSlot_of_norm s (hall s (by simpa [slotsOf] using hs)))]
      congr 1
      funext m
      show ss.any (fun s => slotMem s m) = vOfPairs (ss.map toIdxPair) m
      unfold vOfPairs
      rw [Bool.eq_iff_iff, List.any_eq_true, List.any_eq_true]
      constructor
      · rintro ⟨s, hs, hmem⟩
        refine ⟨toIdxPair s, List.mem_map_of_mem _ hs, ?_⟩
        rw [← slotMem_norm s (hall s (by simpa [slotsOf] using hs)) m]
        exact hmem
      · rintro ⟨p, hp, hmem⟩
        rw [List.mem_map] at hp
        obtain ⟨s, hs, rfl⟩ := hp
        refine ⟨s, hs, ?_⟩
        rw [slotMem_norm s (hall s (by simpa [slotsOf] using hs)) m]
        exact hmem

theorem normSched_pairs (ds : DaySched) (h : NormSched ds) :
    (slotsOf ds).map toIdxPair ≠ [] ∧
      (∀ q ∈ (slotsOf ds).map toIdxPair, q.1 < q.2 ∧ q.2 ≤ 1440) ∧
      List.Chain' natGap ((slotsOf ds).map toIdxPair) := by
  obtain ⟨hne, hall, hchain⟩ := h
  refine ⟨by simpa using hne, ?_, chain_toIdx _ hall hchain⟩
  intro q hq
  rw [List.mem_map] at hq
  obtain ⟨s, hs, rfl⟩ := hq
  exact toIdxPair_bounds s (hall s hs)

theorem rowAny_vOfPairs (ps : List (Nat × Nat))
    (hpv : ∀ q ∈ ps, q.1 < q.2 ∧ q.2 ≤ 1440) (hne : ps ≠ []) :
    rowAny (vOfPairs ps) = true := by
  obtain ⟨q, tl, rfl⟩ := List.exists_cons_of_ne_nil hne
  have hq := hpv q (by simp)
  rw [rowAny, List.any_eq_true]
  refine ⟨q.1, List.mem_range.mpr (by omega), ?_⟩
  rw [vOfPairs_cons]
  have hq1 : natSlotMem q q.1 = true := by
    simp only [natSlotMem, decide_eq_true_eq]
    omega
  rw [hq1, Bool.true_or]

theorem vOfPairs_all_eq (ps : List (Nat × Nat))
    (hpv : ∀ q ∈ ps, q.1 < q.2 ∧ q.2 ≤ 1440) (hpc : List.Chain' natGap ps)
    (hne : ps ≠ []) (hAll : rowAll (vOfPairs ps) = true) : ps = [(0, 1440)] := by
  obtain ⟨q, tl, rfl⟩ := List.exists_cons_of_ne_nil hne
  obtain ⟨a, b⟩ := q
  have hmem : ∀ m, m < 1440 → vOfPairs ((a, b) :: tl) m = true := by
    intro m hm
    rw [rowAll, List.all_eq_true] at hAll
    exact hAll m (List.mem_range.mpr hm)
  have hlb : ∀ p ∈ tl, b < p.1 :=
    rest_lb (a, b) tl (fun p hp => (hpv p (by simp [hp])).1) hpc
  have hq := hpv (a, b) (by simp)
  simp only at hq
  have ha : a = 0 := by
    have h0 := hmem 0 (by omega)
    rw [vOfPairs, List.any_eq_true] at h0
    obtain ⟨p, hp, hpm⟩ := h0
    simp only [natSlotMem, decide_eq_true_eq] at hpm
    rcases List.mem_cons.mp hp with rfl | hp
    · simp only at hpm
      omega
    · have := hlb p hp
      omega
  have hb : b = 1440 := by
    by_contra hbne
    have hblt : b < 1440 := by omega
    have h0 := hmem b hblt
    rw [vOfPairs, List.any_eq_true] at h0
    obtain ⟨p, hp, hpm⟩ := h0
    simp only [natSlotMem, decide_eq_true_eq] at hpm
    rcases List.mem_cons.mp hp with rfl | hp
    · simp only at hpm
      omega
    · have := hlb p hp
      omega
  cases tl with
  | nil => simp [ha, hb]
  | cons p tl2 =>
      exfalso
      have h1 := hlb p (by simp)
      have h2 := hpv p (by simp)
      omega

theorem pairUp_boundaryIdxs (ps : List (Nat × Nat)) :
    pairUp (boundaryIdxs ps) = ps.map fun p => (idxToTime p.1, idxToTime p.2) := by
  induction ps with
  | nil => rfl
  | cons p ps ih =>
      have hcons : boundaryIdxs (p :: ps) = p.1 :: p.2 :: boundaryIdxs ps := by
        simp [boundaryIdxs]
      rw [hcons, List.map_cons]
      show (idxToTime p.1, idxToTime p.2) :: pairUp (boundaryIdxs ps) = _
      rw [ih]

theorem map_idxToTime_slots (ds : DaySched) (h : NormSched ds) :
    (((slotsOf ds).map toIdxPair).map fun p => (idxToTime p.1, idxToTime p.2))
      = slotsOf ds := by
  obtain ⟨hne, hall, hchain⟩ := h
  rw [List.map_map]
  have : ∀ s ∈ slotsOf ds,
      ((fun p => (idxToTime p.1, idxToTime p.2)) ∘ toIdxPair) s = s := by
    intro s hs
    have hn := hall s hs
    show (idxToTime (toIdxPair s).1, idxToTime (toIdxPair s).2) = s
    unfold toIdxPair
    simp only
    rw [idxToTime_timeIdx s.1 hn.1, idxToTime_timeIdx s.2 hn.2.1]
  rw [List.map_congr_left this]
  exact List.map_id' _

theorem format_day_norm (ds : DaySched) (h : NormSched ds) :
    format_day (vOfPairs ((slotsOf ds).map toIdxPair)) = some (canonDay ds) := by
  obtain ⟨hpne, hpv, hpc⟩ := normSched_pairs ds h
  unfold format_day
  by_cases hAll : rowAll (vOfPairs ((slotsOf ds).map toIdxPair)) = true
  · rw [if_pos hAll]
    have hps := vOfPairs_all_eq _ hpv hpc hpne hAll
    have hslots : slotsOf ds = [wholeDaySlot] := by
      cases hsl : slotsOf ds with
      | nil =>
          rw [hsl] at hps
          simp at hps
      | cons s t =>
          rw [hsl, List.map_cons, List.cons_eq_cons] at hps
          obtain ⟨h1, h2⟩ := hps
          have hT : t = [] := by
            rcases t with - | ⟨x, t2⟩
            · rfl
            · simp at h2
          have hnorm := h.2.1 s (by rw [hsl]; simp)
          have e1 : (timeIdx s.1).toNat = 0 := congrArg Prod.fst h1
          have e2 : (timeIdx s.2).toNat = 1440 := congrArg Prod.snd h1
          have hfst := idxToTime_timeIdx s.1 hnorm.1
          have hsnd := idxToTime_timeIdx s.2 hnorm.2.1
          rw [e1] at hfst
          rw [e2] at hsnd
          have hsw : s = wholeDaySlot := by
            rw [show s = (s.1, s.2) from rfl, ← hfst, ← hsnd]
            rfl
          rw [hsw, hT]
    have hcanon : canonDay ds = .single wholeDaySlot := by
      cases ds with
      | single s =>
          have hse : s = wholeDaySlot := by simpa [slotsOf] using hslots
          rw [hse]
          rfl
      | multi ss =>
          have hse : ss = [wholeDaySlot] := by simpa [slotsOf] using hslots
          rw [hse]
          rfl
    rw [hcanon]
  · rw [if_neg hAll]
    have hAny : rowAny (vOfPairs ((slotsOf ds).map toIdxPair)) = true :=
      rowAny_vOfPairs _ hpv hpne
    rw [if_neg (by rw [hAny]; simp)]
    rw [slotIndexes_vOfPairs _ hpv hpc, pairUp_boundaryIdxs, map_idxToTime_slots ds h]
    cases ds with
    | single s => simp [slotsOf, canonDay]
    | multi ss =>
        cases ss with
        | nil =>
            exfalso
            apply h.1
            rfl
        | cons s1 tl =>
            cases tl with
            | nil => simp [slotsOf, canonDay]
            | cons s2 tl2 => simp [slotsOf, canonDay]

/-! ## Dictionary and grid lemmas -/

theorem dictLookup_none_of_big (d : List (Int × DaySched))
    (h : ∀ e ∈ d, 0 ≤ e.1 ∧ e.1 < 7) (k : Int) (hk : 7 ≤ k) :
    dictLookup d k = none := by
  induction d with
  | nil => rfl
  | cons e rest ih =>
      have hrest := ih fun x hx => h x (by simp [hx])
      simp only [dictLookup, hrest]
      have he := h e (by simp)
      rw [if_neg (by omega)]

theorem dictLookup_head_isSome (e : Int × DaySched) (rest : List (Int × DaySched)) :
    (dictLookup (e :: rest) e.1).isSome = true := by
  simp only [dictLookup]
  cases dictLookup rest e.1 with
  | some ds => rfl
  | none => simp

theorem dictLookup_mem (d : List (Int × DaySched)) (k : Int) (ds : DaySched)
    (h : dictLookup d k = some ds) : (k, ds) ∈ d := by
  induction d with
  | nil => simp [dictLookup] at h
  | cons e rest ih =>
      simp only [dictLookup] at h
      cases hl : dictLookup rest k with
      | some ds2 =>
          rw [hl] at h
          cases h
          exact List.mem_cons_of_mem _ (ih hl)
      | none =>
          rw [hl] at h
          by_cases hk : k = e.1
          · rw [if_pos hk] at h
            injection h with h
            subst h
            subst hk
            exact List.mem_cons_self _ _
          · rw [if_neg hk] at h
            cases h

theorem to_matrix_aux_char (d : List (Int × DaySched)) :
    ∀ g0 : Grid, (∀ e ∈ d, 0 ≤ e.1 ∧ e.1 < 7 ∧ (to_vector e.2).isSome = true) →
      ∃ g, to_matrix_aux g0 d = some g ∧
        ∀ k : Nat, g k = (match dictLookup d (k : Int) with
          | some ds => (to_vector ds).getD (fun _ => false)
          | none => g0 k) := by
  induction d with
  | nil =>
      intro g0 _
      exact ⟨g0, rfl, fun k => rfl⟩
  | cons e rest ih =>
      intro g0 h
      obtain ⟨day, ds⟩ := e
      obtain ⟨h1, h2, h3⟩ := h (day, ds) (by simp)
      cases hv : to_vector ds with
      | none =>
          rw [hv] at h3
          simp at h3
      | some row =>
          obtain ⟨g, hg, hchar⟩ := ih (setRow g0 day.toNat row)
            (fun x hx => h x (by simp [hx]))
          refine ⟨g, ?_, ?_⟩
          · simp only [to_matrix_aux]
            rw [if_pos ⟨h1, h2⟩, hv]
            exact hg
          · intro k
            rw [hchar k]
            cases hl : dictLookup rest (k : Int) with
            | some ds2 =>
                rw [show dictLookup ((day, ds) :: rest) (k : Int) = some ds2 from by
                  simp only [dictLookup, hl]]
            | none =>
                rw [show dictLookup ((day, ds) :: rest) (k : Int)
                    = (if (k : Int) = day then some ds else none) from by
                  simp only [dictLookup, hl]]
                by_cases hk : (k : Int) = day
                · rw [if_pos hk]
                  have hkk : k = day.toNat := by omega
                  funext m
                  show setRow g0 day.toNat row k m = ((to_vector ds).getD fun _ => false) m
                  rw [hv, Option.getD_some]
                  show (if k = day.toNat then row m else g0 k m) = row m
                  rw [if_pos hkk]
                · rw [if_neg hk]
                  have hkk : k ≠ day.toNat := by omega
                  funext m
                  show (if k = day.toNat then row m else g0 k m) = g0 k m
                  rw [if_neg hkk]

theorem from_raw_dict_char (d : List (Int × DaySched)) (hne : d ≠ [])
    (h : ∀ e ∈ d, 0 ≤ e.1 ∧ e.1 < 7 ∧ (to_vector e.2).isSome = true) :
    ∃ g, from_raw_dict d = some g ∧
      ∀ k : Nat, g k = (match dictLookup d (k : Int) with
        | some ds => (to_vector ds).getD (fun _ => false)
        | none => fun _ => false) := by
  obtain ⟨g, hg, hchar⟩ := to_matrix_aux_char d emptyGrid h
  refine ⟨g, ?_, ?_⟩
  · rw [from_raw_dict, if_neg (by simpa [List.isEmpty_iff] using hne)]
    exact hg
  · intro k
    rw [hchar k]
    cases dictLookup d (k : Int) <;> rfl

/-! ## Claim theorems -/

/-- C2: the claim says `shift_start(0, 0)` returns without error and leaves
the grid unchanged.  The code instead raises: with a zero total shift the
slice `shifted_slots[:-0]` is the empty slice, and the elementwise AND of a
1440-slot row with an empty array is a numpy broadcast error.  This theorem
evaluates the embedded code at the failing input. -/
theorem c2_shift_zero_raises (g : Grid) : shift_start g 0 0 = none := by
  have hrow : ∀ row : List Bool, row.length = 1440 → shift_row 0 row = none := by
    intro row h
    unfold shift_row pyDropLast npAnd
    rw [if_pos rfl]
    rw [if_neg]
    simp [h]
  unfold shift_start
  rw [if_neg (by omega), if_neg]
  intro hall
  rw [List.all_eq_true] at hall
  have hd := hall 0 (by simp)
  rw [show ((0 : Int) * 60 + 0).toNat = 0 from rfl,
    hrow (gridRow g 0) (by simp [gridRow])] at hd
  simp at hd

/-- C4 counterexample: `is_on_at` does not convert the instant into the
window's timezone.  For the Monday 06:00-18:00 UTC window and a datetime
whose absolute instant is Monday 10:00 UTC but which carries a +10h offset
(so its own fields read Monday 20:00), the code returns false, while the
spec's convert-first reading returns true. -/
theorem c4_counterexample :
    is_on_at mondayWindow ⟨36000, 600⟩ = false ∧
      is_on_at_spec_reading mondayWindow ⟨36000, 600⟩ = true :=
  ⟨rfl, rfl⟩

/-- C4 amended: `is_on_at` indexes the grid with the datetime's own
weekday, hour and minute fields, performing no conversion; hence for a
window with its timezone set and no working-day predicate, and a datetime
already expressed in the window's timezone, it returns the grid cell
indexed by the weekday, hour and minute of the instant in the window's
timezone. -/
theorem c4_is_on_at_own_fields (w : WeeklySchedule) (dt : PyDateTime) (off : Int)
    (hpred : w.is_working_day_fun = none) (htz : w.timezone = some off)
    (hown : dt.tzOffsetMinutes = off) :
    is_on_at w dt =
      w.grid (pyWeekday (astimezone dt off))
        (pyHour (astimezone dt off) * 60 + pyMinute (astimezone dt off)) := by
  have hdt : astimezone dt off = dt := by
    cases dt
    simp only [astimezone, PyDateTime.mk.injEq, true_and]
    exact hown.symm
  rw [hdt]
  simp [is_on_at, hpred, is_on_weekly_schedule]

theorem c4_is_on_at_own_fields_witness :
    mondayWindow.is_working_day_fun = none ∧ mondayWindow.timezone = some 0 ∧
      (PyDateTime.mk 21600 0).tzOffsetMinutes = 0 ∧
      is_on_at mondayWindow ⟨21600, 0⟩ =
        mondayWindow.grid (pyWeekday (astimezone ⟨21600, 0⟩ 0))
          (pyHour (astimezone ⟨21600, 0⟩ 0) * 60 + pyMinute (astimezone ⟨21600, 0⟩ 0)) :=
  ⟨rfl, rfl, rfl, c4_is_on_at_own_fields mondayWindow ⟨21600, 0⟩ 0 rfl rfl rfl⟩

/-- C5: when a working-day predicate is set and returns false for the
queried datetime, `is_on_at` returns false before consulting the grid,
whatever the grid holds. -/
theorem c5_predicate_short_circuits (w : WeeklySchedule) (f : PyDateTime → Bool)
    (dt : PyDateTime) (hf : w.is_working_day_fun = some f) (hdt : f dt = false) :
    is_on_at w dt = false := by
  simp [is_on_at, hf, hdt]

theorem c5_predicate_short_circuits_witness :
    allTrueBlockedWindow.is_working_day_fun = some (fun _ => false) ∧
      (fun _ : PyDateTime => false) ⟨0, 0⟩ = false ∧
      is_on_at allTrueBlockedWindow ⟨0, 0⟩ = false :=
  ⟨rfl, rfl,
    c5_predicate_short_circuits allTrueBlockedWindow (fun _ => false) ⟨0, 0⟩ rfl rfl⟩

/-- C6: for the spec `{0: ((6,0),(18,0))}` with timezone UTC, `is_on_at` is
false at Monday 05:59:00, true at Monday 06:00:00, true at Monday 17:59:59
and false at Monday 18:00:00: the interval fills the half-open minute range
and seconds are ignored. -/
theorem c6_monday_boundary :
    (from_raw_dict mondaySpec).isSome = true ∧
      is_on_at mondayWindow ⟨21540, 0⟩ = false ∧
      is_on_at mondayWindow ⟨21600, 0⟩ = true ∧
      is_on_at mondayWindow ⟨64799, 0⟩ = true ∧
      is_on_at mondayWindow ⟨64800, 0⟩ = false :=
  ⟨rfl, rfl, rfl, rfl, rfl⟩

/-- C7 counterexample: the claim quantifies over every window, but
`invert` ends in `for_timezone(other.timezone)`, and for a window with no
timezone set — a reachable state: a fresh `WeeklySchedule()`, or the
output of `from_to` — `pytz.timezone(None)` raises, so `invert` errors
rather than returning a fresh window. -/
theorem c7_counterexample :
    noTzWindow.timezone = none ∧ invert noTzWindow = none :=
  ⟨rfl, rfl⟩

/-- C7 amended: for every window whose timezone is set, `invert` returns
a freshly constructed window whose grid is the elementwise negation of
the original's and whose timezone equals the original's, with the
working-day predicate not copied; inverting twice restores the grid. -/
theorem c7_invert_amended (w : WeeklySchedule) (off : Int)
    (htz : w.timezone = some off) :
    ∃ wi, invert w = some wi ∧
      (∀ d m, wi.grid d m = !w.grid d m) ∧
      wi.timezone = w.timezone ∧
      wi.is_working_day_fun = none ∧
      ∃ wii, invert wi = some wii ∧ ∀ d m, wii.grid d m = w.grid d m := by
  refine ⟨⟨fun d m => !w.grid d m, some off, none⟩, ?_, fun d m => rfl, htz.symm, rfl,
    ⟨fun d m => !!w.grid d m, some off, none⟩, ?_, fun d m => by simp⟩
  · unfold invert for_timezone
    rw [htz]
  · unfold invert for_timezone
    rfl

theorem c7_invert_amended_witness :
    mondayWindow.timezone = some 0 ∧
      (∃ wi, invert mondayWindow = some wi ∧
        (∀ d m, wi.grid d m = !mondayWindow.grid d m) ∧
        wi.timezone = mondayWindow.timezone ∧
        wi.is_working_day_fun = none ∧
        ∃ wii, invert wi = some wii ∧ ∀ d m, wii.grid d m = mondayWindow.grid d m) :=
  ⟨rfl, c7_invert_amended mondayWindow 0 rfl⟩

/-- C9 counterexample: `_validate` only checks the value range 0..1, not
booleanness, so the float array `np.full((7, 24, 60), 0.5)` passes
`from_raw` without raising and yields a schedule whose values are not
boolean 0/1 — against the claim's invariant. -/
theorem c9_counterexample :
    validateNd halfArray = true ∧ from_raw_nd halfArray = some halfArray ∧
      half ∈ halfArray.elems ∧ half ≠ 0 ∧ half ≠ 1 := by
  have hC : halfArray.elems.all (fun x => decide (0 ≤ x)) = true := by
    rw [List.all_eq_true]
    intro x hx
    rw [List.eq_of_mem_replicate hx]
    decide
  have hD : halfArray.elems.all (fun x => decide (x ≤ 1)) = true := by
    rw [List.all_eq_true]
    intro x hx
    rw [List.eq_of_mem_replicate hx]
    decide
  have hv : validateNd halfArray = true := by
    unfold validateNd
    rw [hC, hD]
    decide
  refine ⟨hv, ?_, ?_, by decide, by decide⟩
  · unfold from_raw_nd
    rw [if_pos hv]
  · show half ∈ List.replicate 10080 half
    have h10080 : (10080 : Nat) ≠ 0 := by norm_num
    exact List.mem_replicate.mpr ⟨h10080, rfl⟩

/-- C9 amended: every grid built through the compact-mapping pipeline
has, as an ndarray, shape exactly (7, 24, 60) and only boolean 0/1
values; the raw-ndarray constructor re-validates and raises unless the
shape is (7, 24, 60) and every value lies in the closed range [0, 1] —
which forces booleanness only for integer-valued arrays, while
fractional values such as 0.5 slip through. -/
theorem c9_grid_invariants_amended :
    (∀ g : Grid, validateNd (gridToNd g) = true) ∧
      (∀ a b : NdArray, from_raw_nd a = some b →
        b.shape = [7, 24, 60] ∧ ∀ x ∈ b.elems, 0 ≤ x ∧ x ≤ 1) ∧
      (∀ a b : NdArray, from_raw_nd a = some b →
        (∀ x ∈ a.elems, ∃ n : Int, x = (n : Rat)) →
        ∀ x ∈ b.elems, x = 0 ∨ x = 1) ∧
      (∀ a : NdArray, validateNd a = false → from_raw_nd a = none) := by
  have hmem : ∀ (g : Grid), ∀ x ∈ (gridToNd g).elems, x = 0 ∨ x = 1 := by
    intro g x hx
    simp only [gridToNd, List.mem_flatMap, List.mem_map] at hx
    obtain ⟨d, -, m, -, hx⟩ := hx
    by_cases hg : g d m
    · rw [if_pos hg] at hx
      exact Or.inr hx.symm
    · rw [if_neg hg] at hx
      exact Or.inl hx.symm
  have hval : ∀ a : NdArray, validateNd a = true →
      a.shape = [7, 24, 60] ∧ ∀ x ∈ a.elems, 0 ≤ x ∧ x ≤ 1 := by
    intro a hv
    simp only [validateNd, Bool.and_eq_true, decide_eq_true_eq,
      List.all_eq_true] at hv
    obtain ⟨⟨⟨-, hshape⟩, hge⟩, hle⟩ := hv
    refine ⟨hshape, fun x hx => ⟨?_, ?_⟩⟩
    · simpa using hge x hx
    · simpa using hle x hx
  refine ⟨fun g => ?_, fun a b h => ?_, fun a b h hint x hx => ?_, fun a h => ?_⟩
  · simp only [validateNd, Bool.and_eq_true, decide_eq_true_eq, List.all_eq_true]
    refine ⟨⟨⟨by simp [gridToNd], rfl⟩, ?_⟩, ?_⟩ <;>
      · intro x hx
        rcases hmem g x hx with h | h <;> simp [h]
  · unfold from_raw_nd at h
    by_cases hv : validateNd a = true
    · rw [if_pos hv] at h
      cases h
      exact hval a hv
    · rw [if_neg hv] at h
      exact absurd h (by simp)
  · unfold from_raw_nd at h
    by_cases hv : validateNd a = true
    · rw [if_pos hv] at h
      cases h
      obtain ⟨hx0, hx1⟩ := (hval a hv).2 x hx
      obtain ⟨n, rfl⟩ := hint x hx
      have h0 : (0 : Int) ≤ n := by exact_mod_cast hx0
      have h1 : n ≤ 1 := by exact_mod_cast hx1
      have hn : n = 0 ∨ n = 1 := by omega
      rcases hn with rfl | rfl
      · exact Or.inl (by norm_num)
      · exact Or.inr (by norm_num)
    · rw [if_neg hv] at h
      exact absurd h (by simp)
  · simp [from_raw_nd, h]

theorem c9_grid_invariants_amended_witness :
    (from_raw_nd ⟨[7, 24, 60], [0, 1]⟩ = some ⟨[7, 24, 60], [0, 1]⟩ ∧
      (∀ x ∈ ([0, 1] : List Rat), ∃ n : Int, x = (n : Rat)) ∧
      ∀ x ∈ NdArray.elems ⟨[7, 24, 60], [0, 1]⟩, x = 0 ∨ x = 1) ∧
      (validateNd ⟨[3], [5]⟩ = false ∧ from_raw_nd ⟨[3], [5]⟩ = none) :=
  ⟨⟨by decide,
    fun x hx => by
      rcases List.mem_cons.mp hx with rfl | hx
      · exact ⟨0, by norm_num⟩
      · simp only [List.mem_singleton] at hx
        subst hx
        exact ⟨1, by norm_num⟩,
    c9_grid_invariants_amended.2.2.1 ⟨[7, 24, 60], [0, 1]⟩ ⟨[7, 24, 60], [0, 1]⟩
      (by decide)
      (fun x hx => by
        rcases List.mem_cons.mp hx with rfl | hx
        · exact ⟨0, by norm_num⟩
        · simp only [List.mem_singleton] at hx
          subst hx
          exact ⟨1, by norm_num⟩)⟩,
    ⟨by decide, c9_grid_invariants_amended.2.2.2 ⟨[3], [5]⟩ (by decide)⟩⟩

/-- C10: the per-day setters are atomic on error: for a malformed day spec
(one `to_vector` rejects) the call raises with the window's grid untouched,
because the whole replacement vector is built and validated before the
single row assignment happens. -/
theorem c10_setters_atomic (w : WeeklySchedule) (ds : DaySched)
    (hbad : to_vector ds = none) :
    monday w ds = none ∧ sunday w ds = none ∧
      ∀ day, set_day_schedule w day ds = none := by
  refine ⟨?_, ?_, fun day => ?_⟩ <;>
    simp [monday, sunday, set_day_schedule, hbad]

theorem c10_setters_atomic_witness :
    to_vector (.single ((10, 0), (9, 0))) = none ∧
      monday mondayWindow (.single ((10, 0), (9, 0))) = none :=
  ⟨rfl, (c10_setters_atomic mondayWindow (.single ((10, 0), (9, 0))) rfl).1⟩

/-- C8: construction from a compact mapping rejects exactly the malformed
inputs: the empty mapping, a day key outside 0..6, an endpoint outside
00:00..24:00, and a start not strictly before its end are rejected, while
any nonempty mapping whose day keys are in range and whose day specs pass
the code's slot checks is accepted; `shift_start` rejects any negative
total shift. -/
theorem c8_invalid_arguments :
    from_raw_dict [] = none ∧
      from_raw_dict [(7, .single ((0, 0), (24, 0)))] = none ∧
      from_raw_dict [(0, .single ((-1, 0), (9, 0)))] = none ∧
      from_raw_dict [(0, .single ((10, 0), (9, 0)))] = none ∧
      (∀ (g : Grid) (hours minutes : Int), hours * 60 + minutes < 0 →
        shift_start g hours minutes = none) ∧
      (∀ d : List (Int × DaySched), d ≠ [] →
        (∀ e ∈ d, 0 ≤ e.1 ∧ e.1 < 7 ∧ AcceptedSched e.2) →
        (from_raw_dict d).isSome = true) := by
  refine ⟨rfl, rfl, rfl, rfl, fun g hours minutes h => ?_, fun d hne h => ?_⟩
  · simp [shift_start, h]
  · have hsome := to_matrix_aux_isSome d emptyGrid h
    simpa [from_raw_dict, List.isEmpty_iff, hne, to_matrix] using hsome

theorem c8_invalid_arguments_witness :
    ((-1 : Int) * 60 + 0 < 0 ∧ shift_start emptyGrid (-1) 0 = none) ∧
      (mondaySpec ≠ [] ∧ (∀ e ∈ mondaySpec, 0 ≤ e.1 ∧ e.1 < 7 ∧ AcceptedSched e.2) ∧
        (from_raw_dict mondaySpec).isSome = true) :=
  ⟨⟨by decide, c8_invalid_arguments.2.2.2.2.1 emptyGrid (-1) 0 (by decide)⟩,
    ⟨by decide, by decide,
      c8_invalid_arguments.2.2.2.2.2 mondaySpec (by decide) (by decide)⟩⟩

/-- C3: for any positive total shift, `shift_start` succeeds and replaces
each day's 1440-minute vector `v` by `v AND (total false minutes prepended
to v, with the last total minutes dropped)`; when the total is at least
1440 the result is an all-false day and no error is raised. -/
theorem c3_shift_start_pos (g : Grid) (hours minutes : Int)
    (hpos : 0 < hours * 60 + minutes) :
    ∃ gg, shift_start g hours minutes = some gg ∧
      (∀ d, gridRow gg d =
        List.zipWith and (gridRow g d)
          (List.replicate (hours * 60 + minutes).toNat false ++
            (gridRow g d).take (1440 - (hours * 60 + minutes).toNat))) ∧
      (1440 ≤ hours * 60 + minutes → ∀ d m, gg d m = false) := by
  set total := (hours * 60 + minutes).toNat with htot
  have htne : total ≠ 0 := by omega
  have hrowlen : ∀ d, (gridRow g d).length = 1440 := fun d => by simp [gridRow]
  have hsr : ∀ d, shift_row total (gridRow g d) =
      some (List.zipWith and (gridRow g d)
        (List.replicate total false ++ (gridRow g d).take (1440 - total))) := by
    intro d
    rw [shift_row_eq total _ htne (hrowlen d), take_shifted_eq total _ (hrowlen d)]
  have hzlen : ∀ d, (List.zipWith and (gridRow g d)
      (List.replicate total false ++ (gridRow g d).take (1440 - total))).length
        = 1440 := by
    intro d
    simp only [List.length_zipWith, List.length_append, List.length_replicate,
      List.length_take, hrowlen d]
    omega
  have hall : ((List.range 7).all
      fun d => (shift_row total (gridRow g d)).isSome) = true := by
    simp only [List.all_eq_true, List.mem_range]
    intro d _
    rw [hsr d]
    rfl
  refine ⟨fun d m => rowOfList ((shift_row total (gridRow g d)).getD []) m,
    ?_, fun d => ?_, fun hbig d m => ?_⟩
  · unfold shift_start
    rw [if_neg (by omega), if_pos hall]
  · show (List.range 1440).map
        (fun m => rowOfList ((shift_row total (gridRow g d)).getD []) m) =
      List.zipWith and (gridRow g d)
        (List.replicate total false ++ (gridRow g d).take (1440 - total))
    rw [hsr d]
    simp only [Option.getD_some, rowOfList]
    exact map_getD_range _ 1440 (hzlen d)
  · show rowOfList ((shift_row total (gridRow g d)).getD []) m = false
    rw [hsr d]
    simp only [Option.getD_some, rowOfList]
    have h0 : 1440 - total = 0 := by omega
    rw [h0, List.take_zero, List.append_nil,
      zipWith_and_replicate_false _ total (by rw [hrowlen d]; omega), hrowlen d]
    rcases Nat.lt_or_ge m 1440 with hm | hm
    · rw [List.getD_eq_getElem _ _ (by rw [List.length_replicate]; exact hm)]
      exact List.getElem_replicate false _
    · exact List.getD_eq_default _ _ (by rw [List.length_replicate]; exact hm)

/-- C1 counterexample: the round-trip claim fails as stated.  For the
accepted compact spec with two adjacent Monday intervals 06:00-07:00 and
07:00-08:00, decoding the built grid merges them into the single interval
06:00-08:00, which differs from the canonicalized input (whose day 0 still
has two intervals). -/
theorem c1_counterexample :
    (from_raw_dict adjacentSpec).isSome = true ∧
      format_schedule adjacentGrid 0 = some (.single ((6, 0), (8, 0))) ∧
      (dictLookup adjacentSpec 0).map canonDay
        = some (.multi [((6, 0), (7, 0)), ((7, 0), (8, 0))]) ∧
      format_schedule adjacentGrid 0 ≠ (dictLookup adjacentSpec 0).map canonDay := by
  refine ⟨by decide, by decide, by decide, by decide⟩

/-- C1 amended: for every compact day-interval mapping accepted by
`from_raw` whose day values are in divmod-normal form (each endpoint has
hour 0..23 and minute 0..59, or is exactly (24, 0)) and whose intervals
are listed in increasing order with a gap between consecutive intervals,
decoding the resulting grid with `format_schedule` returns the mapping in
canonical form: all-false days are absent, an entirely true day renders as
((0,0),(24,0)), and one-element interval tuples are unwrapped. -/
theorem c1_roundtrip_amended (d : List (Int × DaySched)) (hne : d ≠ [])
    (hval : ∀ e ∈ d, 0 ≤ e.1 ∧ e.1 < 7 ∧ NormSched e.2) :
    ∃ g, from_raw_dict d = some g ∧
      ∀ k : Nat, format_schedule g k = (dictLookup d (k : Int)).map canonDay := by
  have hsome : ∀ e ∈ d, 0 ≤ e.1 ∧ e.1 < 7 ∧ (to_vector e.2).isSome = true := by
    intro e he
    obtain ⟨h1, h2, h3⟩ := hval e he
    refine ⟨h1, h2, ?_⟩
    rw [to_vector_norm e.2 h3]
    rfl
  obtain ⟨g, hg, hchar⟩ := from_raw_dict_char d hne hsome
  refine ⟨g, hg, ?_⟩
  have hday : ∀ k : Nat, k < 7 →
      format_day (g k) = (dictLookup d (k : Int)).map canonDay := by
    intro k hk
    rw [hchar k]
    cases hl : dictLookup d (k : Int) with
    | none =>
        show format_day (fun _ => false) = none
        decide
    | some ds =>
        have hds : NormSched ds := (hval _ (dictLookup_mem d _ ds hl)).2.2
        show format_day ((to_vector ds).getD fun _ => false) = some (canonDay ds)
        rw [to_vector_norm ds hds, Option.getD_some]
        exact format_day_norm ds hds
  intro k
  by_cases hk : k < 7
  · by_cases h1 : gridAll g = true
    · have hfs : format_schedule g
          = fun dd => if dd < 7 then some (DaySched.single wholeDaySlot) else none := by
        unfold format_schedule
        rw [if_pos h1]
      rw [hfs]
      show (if k < 7 then some (DaySched.single wholeDaySlot) else none) = _
      rw [if_pos hk]
      have hra : rowAll (g k) = true := by
        rw [gridAll, List.all_eq_true] at h1
        exact h1 k (List.mem_range.mpr hk)
      have hd := hday k hk
      unfold format_day at hd
      rw [if_pos hra] at hd
      exact hd
    · have hany : gridAny g = true := by
        obtain ⟨e, rest, rfl⟩ := List.exists_cons_of_ne_nil hne
        have he := hval e (by simp)
        have hsome1 := dictLookup_head_isSome e rest
        cases hl : dictLookup (e :: rest) e.1 with
        | none =>
            rw [hl] at hsome1
            simp at hsome1
        | some ds =>
            have hds : NormSched ds := (hval _ (dictLookup_mem _ _ ds hl)).2.2
            have hk1 : ((e.1.toNat : Int)) = e.1 := by omega
            have hrow : g e.1.toNat = (to_vector ds).getD (fun _ => false) := by
              have := hchar e.1.toNat
              rw [hk1, hl] at this
              exact this
            rw [gridAny, List.any_eq_true]
            refine ⟨e.1.toNat, List.mem_range.mpr (by omega), ?_⟩
            rw [hrow, to_vector_norm ds hds, Option.getD_some]
            obtain ⟨hpne, hpv, hpc⟩ := normSched_pairs ds hds
            exact rowAny_vOfPairs _ hpv hpne
      have hfs : format_schedule g
          = fun dd => if dd < 7 then format_day (g dd) else none := by
        unfold format_schedule
        rw [if_neg h1, if_neg (by rw [hany]; simp)]
      rw [hfs]
      show (if k < 7 then format_day (g k) else none) = _
      rw [if_pos hk]
      exact hday k hk
  · have hlk : dictLookup d (k : Int) = none :=
      dictLookup_none_of_big d (fun e he => ⟨(hval e he).1, (hval e he).2.1⟩) k
        (by omega)
    rw [hlk]
    show format_schedule g k = none
    unfold format_schedule
    by_cases h1 : gridAll g = true
    · rw [if_pos h1]
      show (if k < 7 then some (DaySched.single wholeDaySlot) else none) = none
      rw [if_neg hk]
    · rw [if_neg h1]
      by_cases h2 : (!gridAny g) = true
      · rw [if_pos h2]
      · rw [if_neg h2]
        show (if k < 7 then format_day (g k) else none) = none
        rw [if_neg hk]

theorem c1_roundtrip_amended_witness :
    (complexSpec ≠ [] ∧ ∀ e ∈ complexSpec, 0 ≤ e.1 ∧ e.1 < 7 ∧ NormSched e.2) ∧
      (∃ g, from_raw_dict complexSpec = some g ∧
        ∀ k : Nat, format_schedule g k
          = (dictLookup complexSpec (k : Int)).map canonDay) :=
  ⟨⟨by decide, by decide⟩,
    c1_roundtrip_amended complexSpec (by decide) (by decide)⟩

theorem c3_shift_start_pos_witness :
    (0 : Int) < 1 * 60 + 0 ∧
      (∃ gg, shift_start mondayGrid 1 0 = some gg ∧
        (∀ d, gridRow gg d =
          List.zipWith and (gridRow mondayGrid d)
            (List.replicate ((1 : Int) * 60 + 0).toNat false ++
              (gridRow mondayGrid d).take (1440 - ((1 : Int) * 60 + 0).toNat))) ∧
        (1440 ≤ (1 : Int) * 60 + 0 → ∀ d m, gg d m = false)) :=
  ⟨by decide, c3_shift_start_pos mondayGrid 1 0 (by decide)⟩

end WeekSched
